import Mathlib

/-!
Shallow embedding of the decision-tree "guess the painters" game
(source file `TreeNode.py`): the tree-node model, the balanced-split
selector `best_split`, the recursive builder `build_tree`, and the
interactive game engine `play_game`, together with theorems checking
the specification's claims against these definitions.

Rows are modelled as total mappings from column names to raw string
values; the interactive yes/no answer source is modelled as a stream
of booleans, one per question asked.  A `none` result of the game
engine models a Python runtime error (attribute access on `None`).
-/

/-- A row record: an (immutable) mapping from column name to raw string value. -/
def Row : Type := String → String

/-- Python `str.strip()`: drop whitespace from both ends of the string
(models `row[col].strip()` in the source). -/
def strip (s : String) : String :=
  String.mk (((s.data.dropWhile Char.isWhitespace).reverse.dropWhile Char.isWhitespace).reverse)

/-- The `TreeNode` class: fields `question` (default `None`), `left` and
`right` children (default `None`), and `answers` (default `[]`). -/
inductive TreeNode : Type where
  | mk (question : Option String) (left : Option TreeNode) (right : Option TreeNode)
      (answers : List String) : TreeNode

/-- Field accessor for `self.question`. -/
def TreeNode.question : TreeNode → Option String
  | .mk q _ _ _ => q

/-- Field accessor for `self.left`. -/
def TreeNode.left : TreeNode → Option TreeNode
  | .mk _ l _ _ => l

/-- Field accessor for `self.right`. -/
def TreeNode.right : TreeNode → Option TreeNode
  | .mk _ _ r _ => r

/-- Field accessor for `self.answers`. -/
def TreeNode.answers : TreeNode → List String
  | .mk _ _ _ a => a

/-- Source `TreeNode.is_leaf`: `return bool(self.answers)`, i.e. true
exactly when the answers list is non-empty. -/
def TreeNode.is_leaf (n : TreeNode) : Bool :=
  !n.answers.isEmpty

/-- Source `all_same_values`: all rows agree with the first row on every
listed column (`True` when there are no rows). -/
def all_same_values (rows : List Row) (col_names : List String) : Bool :=
  match rows with
  | [] => true
  | r0 :: rest => rest.all (fun r => col_names.all (fun c => r c == r0 c))

/-- Count of rows whose value for column `c` strips to `"0"`
(source: `count_0` in `best_split`). -/
def count_0 (rows : List Row) (c : String) : Nat :=
  rows.countP (fun r => strip (r c) == "0")

/-- Count of rows whose value for column `c` strips to `"1"`
(source: `count_1` in `best_split`). -/
def count_1 (rows : List Row) (c : String) : Nat :=
  rows.countP (fun r => strip (r c) == "1")

/-- Source `balance = abs(count_0 - count_1)` (Python integers). -/
def balance (rows : List Row) (c : String) : Nat :=
  ((count_0 rows c : Int) - (count_1 rows c : Int)).natAbs

/-- The validity test of a candidate split in the source:
`0 < count_0 < len(rows) and 0 < count_1 < len(rows)`. -/
def usable (rows : List Row) (c : String) : Prop :=
  0 < count_0 rows c ∧ count_0 rows c < rows.length ∧
    0 < count_1 rows c ∧ count_1 rows c < rows.length

instance (rows : List Row) (c : String) : Decidable (usable rows c) := by
  unfold usable; exact inferInstance

/-- One iteration of the loop in `best_split`.  The accumulator holds the
best classification found so far together with its balance; `none` plays
the role of the initial `best_classification = None, best_balance = inf`
(every usable feature beats infinity). -/
def best_split_step (rows : List Row) (acc : Option (String × Nat)) (c : String) :
    Option (String × Nat) :=
  match acc with
  | none => if usable rows c then some (c, balance rows c) else none
  | some (b, bb) =>
      if usable rows c ∧ balance rows c < bb then some (c, balance rows c) else some (b, bb)

/-- Source `best_split`: scan the classifications in order, keeping the
first feature attaining the strictly smallest balance among the usable
ones; `none` when no feature is usable. -/
def best_split (rows : List Row) (classifications : List String) : Option String :=
  (classifications.foldl (best_split_step rows) none).map Prod.fst

/-- Source line `left_split = [row for row in rows if row[best].strip() == '0']`. -/
def left_split (rows : List Row) (c : String) : List Row :=
  rows.filter (fun r => strip (r c) == "0")

/-- Source line `right_split = [row for row in rows if row[best].strip() == '1']`. -/
def right_split (rows : List Row) (c : String) : List Row :=
  rows.filter (fun r => strip (r c) == "1")

/-- Source line `remaining_classifications = [c for c in classifications if c != best]`. -/
def remaining_classifications (classifications : List String) (best : String) : List String :=
  classifications.filter (fun c => c != best)

/-- The selected classification is one of the candidates (the loop in
`best_split` only ever stores elements of the scanned list).  Needed to
justify termination of `build_tree`. -/
theorem best_split_mem {rows : List Row} {cs : List String} {c : String}
    (h : best_split rows cs = some c) : c ∈ cs := by
  unfold best_split at h
  obtain ⟨⟨a, ba⟩, hf, hfst⟩ := Option.map_eq_some'.mp h
  subst hfst
  suffices hgen : ∀ (l : List String) (acc : Option (String × Nat)),
      l.foldl (best_split_step rows) acc = some (a, ba) → acc = some (a, ba) ∨ a ∈ l by
    rcases hgen cs none hf with h' | h'
    · exact absurd h' (by simp)
    · exact h'
  intro l
  induction l with
  | nil => intro acc h'; exact Or.inl h'
  | cons x xs ih =>
    intro acc h'
    rw [List.foldl_cons] at h'
    rcases ih (best_split_step rows acc x) h' with h2 | h2
    · unfold best_split_step at h2
      match acc with
      | none =>
        dsimp only at h2
        by_cases hu : usable rows x
        · rw [if_pos hu] at h2
          exact Or.inr (by simp_all)
        · rw [if_neg hu] at h2; exact absurd h2 (by simp)
      | some (b, bb) =>
        dsimp only at h2
        by_cases hc : usable rows x ∧ balance rows x < bb
        · rw [if_pos hc] at h2
          exact Or.inr (by simp_all)
        · rw [if_neg hc] at h2; exact Or.inl h2
    · exact Or.inr (List.mem_cons_of_mem _ h2)

/-- Removing the chosen feature strictly shrinks the candidate list. -/
theorem remaining_length_lt {cs : List String} {c : String} (h : c ∈ cs) :
    (remaining_classifications cs c).length < cs.length := by
  unfold remaining_classifications
  refine List.length_filter_lt_length_iff_exists.mpr ⟨c, h, ?_⟩
  simp

/-- Source `build_tree`: empty rows give a degenerate empty leaf; rows all
identical on label and candidates give a leaf collecting one label per row;
otherwise split on `best_split`'s choice (the Python test
`not classifications or not best_classification` also sends the falsy
empty-string feature name to the leaf branch) and recurse on the two
partitions with the chosen feature removed. -/
def build_tree (rows : List Row) (classifications : List String) (label_col : String) :
    TreeNode :=
  if rows.isEmpty then
    TreeNode.mk none none none []
  else if all_same_values rows (label_col :: classifications) then
    TreeNode.mk none none none (rows.map (fun r => r label_col))
  else
    match _hbs : best_split rows classifications with
    | none => TreeNode.mk none none none (rows.map (fun r => r label_col))
    | some best =>
      if classifications = [] ∨ best = "" then
        TreeNode.mk none none none (rows.map (fun r => r label_col))
      else
        TreeNode.mk (some best)
          (some (build_tree (left_split rows best)
            (remaining_classifications classifications best) label_col))
          (some (build_tree (right_split rows best)
            (remaining_classifications classifications best) label_col))
          []
termination_by classifications.length
decreasing_by
  · exact remaining_length_lt (best_split_mem _hbs)
  · exact remaining_length_lt (best_split_mem _hbs)

/-- Result of one play-through, as reported by `play_game`:
success with the confirmed answer and the question count, failure
("could not guess") with the question count, or "could not make a
guess" for an empty answers list. -/
inductive Outcome : Type where
  | success (answer : String) (questions : Nat) : Outcome
  | failure (questions : Nat) : Outcome
  | noGuess : Outcome
deriving DecidableEq

/-- The question loop of `play_game` (`while not node.is_leaf(): ...`):
consume one yes/no answer per internal node, go right on yes and left on
no, incrementing the guess counter.  The answer source `src` yields the
reply to the `i`-th question asked in the session.  Stepping into a
`None` child models the `AttributeError` the source raises on the next
loop test, hence the `none` result. -/
def run_traversal (src : Nat → Bool) : TreeNode → Nat → Nat → Option (TreeNode × Nat × Nat)
  | node@(.mk _ left right _), i, guesses =>
    if node.is_leaf then
      some (node, i, guesses)
    else if src i then
      match right with
      | none => none
      | some child => run_traversal src child (i + 1) (guesses + 1)
    else
      match left with
      | none => none
      | some child => run_traversal src child (i + 1) (guesses + 1)

/-- The leaf confirmation loop of `play_game`: ask about each collected
answer in stored order, incrementing the counter per question; stop with
success at the first affirmative reply, and report failure with the
final counter when the list is exhausted. -/
def guess_loop (src : Nat → Bool) : List String → Nat → Nat → Outcome
  | [], _, guesses => Outcome.failure guesses
  | element :: rest, i, guesses =>
    if src i then Outcome.success element (guesses + 1)
    else guess_loop src rest (i + 1) (guesses + 1)

/-- Source `play_game`: traverse from the root counting questions, then
run the leaf protocol.  The source's single-answer branch asks the one
confirmation question and reports success or failure with the
incremented counter, exactly the behaviour of `guess_loop` on a
one-element list, so both non-empty branches reduce to `guess_loop`;
the empty branch prints "I couldn't make a guess.".  A `none` result
models the runtime error inherited from `run_traversal`. -/
def play_game (tree : TreeNode) (src : Nat → Bool) : Option Outcome :=
  match run_traversal src tree 0 0 with
  | none => none
  | some (node, i, guesses) =>
    if node.answers.length = 1 then
      some (guess_loop src node.answers i guesses)
    else if node.answers.length > 1 then
      some (guess_loop src node.answers i guesses)
    else
      some Outcome.noGuess

/-- Height of a tree node: 1 for a node with no children, one more than
the larger child height otherwise (a `None` child contributes 0). -/
def TreeNode.depth : TreeNode → Nat
  | .mk _ l r _ =>
    1 + max
      (match l with | none => 0 | some t => TreeNode.depth t)
      (match r with | none => 0 | some t => TreeNode.depth t)

/-- Question sequences along every root-to-leaf path of a tree.  A node
with a question and two children contributes its question in front of
every path of either child; any other node ends the path. -/
def TreeNode.paths : TreeNode → List (List String)
  | .mk (some q) (some l) (some r) _ => (TreeNode.paths l ++ TreeNode.paths r).map (fun p => q :: p)
  | .mk _ _ _ _ => [[]]

/-- Answers lists of all terminal nodes of a tree: a node with two
children defers to them, any other node is terminal and contributes its
own answers list. -/
def TreeNode.leaves : TreeNode → List (List String)
  | .mk _ (some l) (some r) _ => TreeNode.leaves l ++ TreeNode.leaves r
  | .mk _ _ _ ans => [ans]

/-- A tree-node object on an explicit heap: same fields as `TreeNode`,
with children given as heap references. -/
structure NodeObj : Type where
  question : Option String
  left : Option Nat
  right : Option Nat
  answers : List String

/-- A heap of node objects addressed by reference; a session could
mutate it, so the engine threads it through and returns it. -/
def Heap : Type := Nat → Option NodeObj

/-- Source `TreeNode.is_leaf` read on a heap node object. -/
def NodeObj.is_leaf (n : NodeObj) : Bool :=
  !n.answers.isEmpty

/-- The question loop of `play_game` over an explicit heap, fuelled so
that it is total on arbitrary (possibly cyclic) heaps.  Every access is
a read; the heap is returned alongside the result so that any mutation
would be observable.  `none` results model a runtime error or
non-termination of the source loop. -/
def run_traversal_h (h : Heap) (src : Nat → Bool) :
    Nat → Nat → Nat → Nat → Option (NodeObj × Nat × Nat) × Heap
  | 0, _, _, _ => (none, h)
  | fuel + 1, nid, i, guesses =>
    match h nid with
    | none => (none, h)
    | some node =>
      if node.is_leaf then (some (node, i, guesses), h)
      else
        match (if src i then node.right else node.left) with
        | none => (none, h)
        | some child => run_traversal_h h src fuel child (i + 1) (guesses + 1)

/-- Source `play_game` over an explicit heap: traversal followed by the
leaf protocol, returning the heap it finishes with. -/
def play_game_h (h : Heap) (src : Nat → Bool) (root fuel : Nat) : Option Outcome × Heap :=
  match run_traversal_h h src fuel root 0 0 with
  | (none, h2) => (none, h2)
  | (some (node, i, guesses), h2) =>
    if node.answers.length = 1 then
      (some (guess_loop src node.answers i guesses), h2)
    else if node.answers.length > 1 then
      (some (guess_loop src node.answers i guesses), h2)
    else
      (some Outcome.noGuess, h2)

/-- Sequential replay (the `while True: play_game(tree)` loop of `main`):
play one session per answer source, threading the heap from one session
into the next, and collect the outcomes. -/
def play_sessions (root fuel : Nat) : List (Nat → Bool) → Heap → List (Option Outcome) × Heap
  | [], h => ([], h)
  | src :: rest, h =>
    let r1 := play_game_h h src root fuel
    let r2 := play_sessions root fuel rest r1.2
    (r1.1 :: r2.1, r2.2)

/-- The loop invariant of `best_split`: after scanning a prefix `p`, the
accumulator is `none` exactly when no scanned feature was usable, and
otherwise holds the first usable feature of strictly smallest balance
among the scanned ones, together with that balance. -/
def BestInv (rows : List Row) (p : List String) (acc : Option (String × Nat)) : Prop :=
  (acc = none → ∀ d ∈ p, ¬ usable rows d) ∧
  (∀ a ba, acc = some (a, ba) → ba = balance rows a ∧
    ∃ pre post, p = pre ++ a :: post ∧ usable rows a ∧
      (∀ d ∈ pre, usable rows d → ba < balance rows d) ∧
      (∀ d ∈ post, usable rows d → ba ≤ balance rows d))

/-- Concrete dataset from the specification's test properties: two rows,
label column "label" and one feature "legs". -/
def exRowCat : Row := fun c => if c = "label" then "cat" else if c = "legs" then "1" else ""

/-- Second concrete row: the dog, with zero in the "legs" feature. -/
def exRowDog : Row := fun c => if c = "label" then "dog" else if c = "legs" then "0" else ""

/-- The two-row concrete dataset. -/
def exRows : List Row := [exRowCat, exRowDog]

/-- The tree the specification expects from the two-row dataset: one
internal node on "legs" with single-answer leaves. -/
def exTree : TreeNode :=
  TreeNode.mk (some "legs")
    (some (TreeNode.mk none none none ["dog"]))
    (some (TreeNode.mk none none none ["cat"]))
    []

/-- A row over two feature columns "a" and "b", used to exercise the
balance comparison of `best_split`. -/
def exRowAB (va vb : String) : Row :=
  fun c => if c = "a" then va else if c = "b" then vb else ""

/-- Four rows on which feature "a" splits 3/1 and feature "b" splits 2/2,
so "b" has the strictly smaller imbalance. -/
def exRowsAB : List Row :=
  [exRowAB "0" "0", exRowAB "0" "0", exRowAB "0" "1", exRowAB "1" "1"]

/-- A degenerate empty leaf: `TreeNode(answers=[])`, as returned by
`build_tree` on an empty row list. -/
def degenerateLeaf : TreeNode := TreeNode.mk none none none []

/-- Answer source replying "no" to the first question and "yes" to the
second. -/
def exSrcNoYes : Nat → Bool := fun n => n == 1

/-- Emptiness test of a non-empty list is false. -/
theorem isEmpty_eq_false_of_ne_nil {α : Type} {l : List α} (h : l ≠ []) :
    l.isEmpty = false := by
  cases l with
  | nil => exact absurd rfl h
  | cons a t => rfl

/-- Unfolding equation of `build_tree` on the empty row list. -/
theorem build_tree_nil (cs : List String) (lbl : String) :
    build_tree [] cs lbl = TreeNode.mk none none none [] := by
  rw [build_tree.eq_def]
  rfl

/-- Unfolding equation of `build_tree` when all rows agree on the label
and every remaining candidate. -/
theorem build_tree_eq_leaf_same (rows : List Row) (cs : List String) (lbl : String)
    (h1 : rows ≠ []) (h2 : all_same_values rows (lbl :: cs) = true) :
    build_tree rows cs lbl = TreeNode.mk none none none (rows.map (fun r => r lbl)) := by
  rw [build_tree.eq_def]
  rw [isEmpty_eq_false_of_ne_nil h1, h2]
  rfl

/-- Unfolding equation of `build_tree` in the splitting case. -/
theorem build_tree_eq_split (rows : List Row) (cs : List String) (lbl c : String)
    (h1 : rows ≠ []) (h2 : all_same_values rows (lbl :: cs) = false)
    (h3 : best_split rows cs = some c) (h4 : c ≠ "") :
    build_tree rows cs lbl =
      TreeNode.mk (some c)
        (some (build_tree (left_split rows c) (remaining_classifications cs c) lbl))
        (some (build_tree (right_split rows c) (remaining_classifications cs c) lbl))
        [] := by
  have hne : cs ≠ [] := List.ne_nil_of_mem (best_split_mem h3)
  rw [build_tree.eq_def]
  rw [isEmpty_eq_false_of_ne_nil h1, h2]
  simp only [Bool.false_eq_true, if_false]
  split
  next hb => rw [h3] at hb; cases hb
  next best hb =>
    rw [h3] at hb
    injection hb with hb
    subst hb
    rw [if_neg (by simp [hne, h4])]

/-- Concrete evaluation: the two-row dataset builds the one-question tree
the specification's test property expects. -/
theorem build_tree_ex_eval : build_tree exRows ["legs"] "label" = exTree := by
  rw [build_tree_eq_split exRows ["legs"] "label" "legs"
      (by unfold exRows; exact List.cons_ne_nil _ _) (by decide) (by decide) (by decide)]
  rw [build_tree_eq_leaf_same (left_split exRows "legs") (remaining_classifications ["legs"] "legs")
      "label" (List.ne_nil_of_length_pos (by decide)) (by decide)]
  rw [build_tree_eq_leaf_same (right_split exRows "legs") (remaining_classifications ["legs"] "legs")
      "label" (List.ne_nil_of_length_pos (by decide)) (by decide)]
  rfl

/-- The loop of `best_split` maintains `BestInv` over the scanned prefix:
proved by induction over the list from the right, following the order in
which the fold consumes it. -/
theorem best_split_foldl_inv (rows : List Row) (cs : List String) :
    BestInv rows cs (cs.foldl (best_split_step rows) none) := by
  induction cs using List.reverseRecOn with
  | nil =>
    constructor
    · intro _ d hd; cases hd
    · intro a ba h; cases h
  | append_singleton p x ih =>
    obtain ⟨ih1, ih2⟩ := ih
    rw [List.foldl_append, List.foldl_cons, List.foldl_nil]
    cases hA : p.foldl (best_split_step rows) none with
    | none =>
      have hall : ∀ d ∈ p, ¬ usable rows d := ih1 hA
      unfold best_split_step
      by_cases hu : usable rows x
      · rw [if_pos hu]
        constructor
        · intro h; cases h
        · intro a ba h
          injection h with h
          injection h with h1 h2
          subst h1; subst h2
          refine ⟨rfl, p, [], rfl, hu, ?_, ?_⟩
          · intro d hd hud; exact absurd hud (hall d hd)
          · intro d hd; cases hd
      · rw [if_neg hu]
        constructor
        · intro _ d hd
          rcases List.mem_append.mp hd with hd' | hd'
          · exact hall d hd'
          · rw [List.mem_singleton.mp hd']; exact hu
        · intro a ba h; cases h
    | some ab =>
      obtain ⟨a, ba⟩ := ab
      obtain ⟨hba, pre, post, hdec, hua, hpre, hpost⟩ := ih2 a ba hA
      unfold best_split_step
      dsimp only
      by_cases hc : usable rows x ∧ balance rows x < ba
      · rw [if_pos hc]
        constructor
        · intro h; cases h
        · intro a2 ba2 h
          injection h with h
          injection h with h1 h2
          subst h1; subst h2
          refine ⟨rfl, p, [], rfl, hc.1, ?_, ?_⟩
          · intro d hd hud
            rw [hdec] at hd
            rcases List.mem_append.mp hd with hd' | hd'
            · exact lt_trans hc.2 (hba ▸ hpre d hd' hud)
            · rcases List.mem_cons.mp hd' with hd2 | hd2
              · subst hd2; exact hba ▸ hc.2
              · exact lt_of_lt_of_le hc.2 (hba ▸ hpost d hd2 hud)
          · intro d hd; cases hd
      · rw [if_neg hc]
        constructor
        · intro h; cases h
        · intro a2 ba2 h
          injection h with h
          injection h with h1 h2
          subst h1; subst h2
          refine ⟨hba, pre, post ++ [x], by rw [hdec]; simp, hua, hpre, ?_⟩
          intro d hd hud
          rcases List.mem_append.mp hd with hd' | hd'
          · exact hpost d hd' hud
          · rw [List.mem_singleton.mp hd']
            rcases not_and_or.mp hc with hc' | hc'
            · exact absurd (List.mem_singleton.mp hd' ▸ hud) hc'
            · exact le_of_not_lt hc'

/-- The feature chosen by `best_split` is usable. -/
theorem best_split_usable {rows : List Row} {cs : List String} {c : String}
    (h : best_split rows cs = some c) : usable rows c := by
  unfold best_split at h
  obtain ⟨⟨a, ba⟩, hf, hfst⟩ := Option.map_eq_some'.mp h
  subst hfst
  obtain ⟨_, _, _, _, hu, _, _⟩ := (best_split_foldl_inv rows cs).2 a ba hf
  exact hu

/-- The confirmation loop stops at the first affirmed answer: if answer
`j` (0-based) gets the first "yes", the loop reports success with that
answer after `j + 1` further questions. -/
theorem guess_loop_success (src : Nat → Bool) :
    ∀ (es : List String) (i g j : Nat) (hj : j < es.length),
      src (i + j) = true → (∀ m, m < j → src (i + m) = false) →
      guess_loop src es i g = Outcome.success (es.get ⟨j, hj⟩) (g + (j + 1)) := by
  intro es
  induction es with
  | nil => intro i g j hj; exact absurd hj (by simp)
  | cons e rest ih =>
    intro i g j hj htrue hfalse
    cases j with
    | zero =>
      unfold guess_loop
      rw [show src i = true from by simpa using htrue]
      rfl
    | succ j2 =>
      have h0 : src i = false := by simpa using hfalse 0 (Nat.succ_pos j2)
      unfold guess_loop
      rw [h0]
      simp only [Bool.false_eq_true, if_false]
      have hrec := ih (i + 1) (g + 1) j2 (Nat.lt_of_succ_lt_succ hj)
        (by rw [show i + 1 + j2 = i + (j2 + 1) from by omega]; exact htrue)
        (fun m hm => by
          rw [show i + 1 + m = i + (m + 1) from by omega]
          exact hfalse (m + 1) (Nat.succ_lt_succ hm))
      rw [hrec]
      have harith : g + 1 + (j2 + 1) = g + (j2 + 1 + 1) := by omega
      rw [harith]
      rfl

/-- The confirmation loop exhausts the answers when none is affirmed,
reporting failure with one question counted per stored answer. -/
theorem guess_loop_failure (src : Nat → Bool) :
    ∀ (es : List String) (i g : Nat),
      (∀ j, j < es.length → src (i + j) = false) →
      guess_loop src es i g = Outcome.failure (g + es.length) := by
  intro es
  induction es with
  | nil => intro i g _; rfl
  | cons e rest ih =>
    intro i g hfalse
    unfold guess_loop
    rw [show src i = false from by simpa using hfalse 0 (by simp)]
    simp only [Bool.false_eq_true, if_false]
    rw [ih (i + 1) (g + 1)
      (fun j hj => by
        rw [show i + 1 + j = i + (j + 1) from by omega]
        exact hfalse (j + 1) (by simpa using Nat.succ_lt_succ hj))]
    have harith : g + 1 + rest.length = g + (rest.length + 1) := by omega
    rw [harith]
    rfl

/-- The heap-threading traversal never writes to the heap. -/
theorem run_traversal_h_heap (h : Heap) (src : Nat → Bool) :
    ∀ (fuel nid i guesses : Nat), (run_traversal_h h src fuel nid i guesses).2 = h := by
  intro fuel
  induction fuel with
  | zero => intro nid i g; rfl
  | succ n ih =>
    intro nid i g
    unfold run_traversal_h
    cases hn : h nid with
    | none => rfl
    | some node =>
      dsimp only
      by_cases hl : node.is_leaf
      · rw [if_pos hl]
      · rw [if_neg hl]
        cases hch : (if src i then node.right else node.left) with
        | none => rfl
        | some child => exact ih child (i + 1) (g + 1)

/-- One full game session never writes to the heap. -/
theorem play_game_h_heap (h : Heap) (src : Nat → Bool) (root fuel : Nat) :
    (play_game_h h src root fuel).2 = h := by
  have hh := run_traversal_h_heap h src fuel root 0 0
  unfold play_game_h
  cases hrt : run_traversal_h h src fuel root 0 0 with
  | mk res h2 =>
    rw [hrt] at hh
    dsimp only at hh
    subst hh
    cases res with
    | none => rfl
    | some nig =>
      obtain ⟨node, i, g⟩ := nig
      dsimp only
      by_cases h1 : node.answers.length = 1
      · rw [if_pos h1]
      · rw [if_neg h1]
        by_cases h2 : node.answers.length > 1
        · rw [if_pos h2]
        · rw [if_neg h2]

/-- Sequential replay leaves the heap unchanged and produces, for each
session, the outcome of a fresh session on the original heap. -/
theorem play_sessions_spec (root fuel : Nat) :
    ∀ (srcs : List (Nat → Bool)) (h : Heap),
      (play_sessions root fuel srcs h).2 = h ∧
      (play_sessions root fuel srcs h).1 =
        srcs.map (fun s => (play_game_h h s root fuel).1) := by
  intro srcs
  induction srcs with
  | nil => intro h; exact ⟨rfl, rfl⟩
  | cons s rest ih =>
    intro h
    unfold play_sessions
    have hf : (play_game_h h s root fuel).2 = h := play_game_h_heap h s root fuel
    dsimp only
    rw [hf]
    obtain ⟨ih1, ih2⟩ := ih h
    constructor
    · exact ih1
    · rw [ih2, List.map_cons]

/-- The chosen feature does not survive its own removal. -/
theorem remaining_not_self (cs : List String) (best : String) :
    best ∉ remaining_classifications cs best := by
  intro h
  have := (List.mem_filter.mp h).2
  simp at this

/-- The reduced candidate list is a subset of the original one. -/
theorem remaining_subset {cs : List String} {best x : String}
    (h : x ∈ remaining_classifications cs best) : x ∈ cs :=
  (List.mem_filter.mp h).1

/-- Fuelled form of the depth bound: trees built from at most `n`
candidates have height at most one more than the candidate count. -/
theorem build_tree_depth_le_aux :
    ∀ (n : Nat) (rows : List Row) (cs : List String) (lbl : String), cs.length ≤ n →
      (build_tree rows cs lbl).depth ≤ cs.length + 1 := by
  intro n
  induction n with
  | zero =>
    intro rows cs lbl hlen
    have hcs : cs = [] := List.length_eq_zero.mp (Nat.le_zero.mp hlen)
    subst hcs
    rw [build_tree.eq_def]
    split
    · simp [TreeNode.depth]
    · split
      · simp [TreeNode.depth]
      · split
        next => simp [TreeNode.depth]
        next best hb => exact absurd hb (by simp [best_split])
  | succ n ih =>
    intro rows cs lbl hlen
    rw [build_tree.eq_def]
    split
    · simp [TreeNode.depth]
    · split
      · simp [TreeNode.depth]
      · split
        next => simp [TreeNode.depth]
        next best hb =>
          split
          · simp [TreeNode.depth]
          · have hmem := best_split_mem hb
            have hlt := remaining_length_lt hmem
            have h1 := ih (left_split rows best) (remaining_classifications cs best) lbl
              (by omega)
            have h2 := ih (right_split rows best) (remaining_classifications cs best) lbl
              (by omega)
            simp only [TreeNode.depth]
            have hm : max
                (build_tree (left_split rows best) (remaining_classifications cs best) lbl).depth
                (build_tree (right_split rows best) (remaining_classifications cs best) lbl).depth
                ≤ cs.length := Nat.max_le.mpr ⟨by omega, by omega⟩
            omega

/-- Fuelled path invariant: every root-to-leaf question sequence of a
built tree is duplicate-free and draws only on the candidate list. -/
theorem build_tree_paths_aux :
    ∀ (n : Nat) (rows : List Row) (cs : List String) (lbl : String), cs.length ≤ n →
      ∀ p ∈ (build_tree rows cs lbl).paths, p.Nodup ∧ ∀ x ∈ p, x ∈ cs := by
  intro n
  induction n with
  | zero =>
    intro rows cs lbl hlen p hp
    have hcs : cs = [] := List.length_eq_zero.mp (Nat.le_zero.mp hlen)
    subst hcs
    rw [build_tree.eq_def] at hp
    split at hp
    · simp [TreeNode.paths] at hp
      subst hp
      simp
    · split at hp
      · simp [TreeNode.paths] at hp
        subst hp
        simp
      · split at hp
        next => simp [TreeNode.paths] at hp; subst hp; simp
        next best hb => exact absurd hb (by simp [best_split])
  | succ n ih =>
    intro rows cs lbl hlen p hp
    rw [build_tree.eq_def] at hp
    split at hp
    · simp [TreeNode.paths] at hp; subst hp; simp
    · split at hp
      · simp [TreeNode.paths] at hp; subst hp; simp
      · split at hp
        next => simp [TreeNode.paths] at hp; subst hp; simp
        next best hb =>
          split at hp
          · simp [TreeNode.paths] at hp; subst hp; simp
          · have hmem := best_split_mem hb
            have hlt := remaining_length_lt hmem
            simp only [TreeNode.paths] at hp
            rw [List.mem_map] at hp
            obtain ⟨p2, hp2, hpe⟩ := hp
            subst hpe
            have hrec : p2.Nodup ∧ ∀ x ∈ p2, x ∈ remaining_classifications cs best := by
              rcases List.mem_append.mp hp2 with hP | hP
              · exact ih (left_split rows best) (remaining_classifications cs best) lbl
                  (by omega) p2 hP
              · exact ih (right_split rows best) (remaining_classifications cs best) lbl
                  (by omega) p2 hP
            obtain ⟨hnd, hsub⟩ := hrec
            constructor
            · exact List.nodup_cons.mpr
                ⟨fun hc => remaining_not_self cs best (hsub best hc), hnd⟩
            · intro x hx
              rcases List.mem_cons.mp hx with hx' | hx'
              · subst hx'; exact hmem
              · exact remaining_subset (hsub x hx')

/-- Fuelled leaf invariant: a tree built from a non-empty row list has no
terminal node with an empty answers list, because a selected feature has
both buckets non-empty, so both recursive calls receive non-empty rows. -/
theorem build_tree_leaves_aux :
    ∀ (n : Nat) (rows : List Row) (cs : List String) (lbl : String), cs.length ≤ n →
      rows ≠ [] → ∀ ans ∈ (build_tree rows cs lbl).leaves, ans ≠ [] := by
  intro n
  induction n with
  | zero =>
    intro rows cs lbl hlen hrows ans hans
    have hcs : cs = [] := List.length_eq_zero.mp (Nat.le_zero.mp hlen)
    subst hcs
    rw [build_tree.eq_def] at hans
    split at hans
    next hE => rw [isEmpty_eq_false_of_ne_nil hrows] at hE; cases hE
    · split at hans
      · simp [TreeNode.leaves] at hans
        subst hans
        simp [hrows]
      · split at hans
        next =>
          simp [TreeNode.leaves] at hans
          subst hans
          simp [hrows]
        next best hb => exact absurd hb (by simp [best_split])
  | succ n ih =>
    intro rows cs lbl hlen hrows ans hans
    rw [build_tree.eq_def] at hans
    split at hans
    next hE => rw [isEmpty_eq_false_of_ne_nil hrows] at hE; cases hE
    · split at hans
      · simp [TreeNode.leaves] at hans; subst hans; simp [hrows]
      · split at hans
        next => simp [TreeNode.leaves] at hans; subst hans; simp [hrows]
        next best hb =>
          split at hans
          · simp [TreeNode.leaves] at hans; subst hans; simp [hrows]
          · have hmem := best_split_mem hb
            have hlt := remaining_length_lt hmem
            have hu := best_split_usable hb
            have hc0 : count_0 rows best = (left_split rows best).length := by
              unfold count_0 left_split
              exact List.countP_eq_length_filter _ _
            have hc1 : count_1 rows best = (right_split rows best).length := by
              unfold count_1 right_split
              exact List.countP_eq_length_filter _ _
            have hl0 : left_split rows best ≠ [] :=
              List.ne_nil_of_length_pos (by rw [← hc0]; exact hu.1)
            have hr0 : right_split rows best ≠ [] :=
              List.ne_nil_of_length_pos (by rw [← hc1]; exact hu.2.2.1)
            simp only [TreeNode.leaves] at hans
            rcases List.mem_append.mp hans with hA | hA
            · exact ih (left_split rows best) (remaining_classifications cs best) lbl
                (by omega) hl0 ans hA
            · exact ih (right_split rows best) (remaining_classifications cs best) lbl
                (by omega) hr0 ans hA

/-- C1: the claim requires that a traversal reaching a malformed node —
in particular the degenerate empty leaf `build_tree` returns for an empty
row set — end the game with the "could not make a guess" outcome and no
further questions.  The code instead misclassifies the degenerate leaf as
internal, enters the question loop and crashes on its `None` child
(modelled by the `none` result), for every answer sequence. -/
theorem play_game_degenerate_crash (cs : List String) (lbl : String) (src : Nat → Bool) :
    play_game (build_tree [] cs lbl) src = none ∧
      play_game (build_tree [] cs lbl) src ≠ some Outcome.noGuess := by
  have hrt : run_traversal src (TreeNode.mk none none none []) 0 0 = none := by
    unfold run_traversal
    cases hs : src 0 <;> simp [TreeNode.is_leaf, TreeNode.answers, hs]
  have hmain : play_game (build_tree [] cs lbl) src = none := by
    rw [build_tree_nil]
    unfold play_game
    rw [hrt]
  exact ⟨hmain, by rw [hmain]; simp⟩

/-- C2: the claim states that the leaf-status query classifies the
degenerate node (no question, no answers) as a leaf.  The code's
`is_leaf` returns `bool(self.answers)`, which is false on the degenerate
node, contradicting the claim (and the method's own comment). -/
theorem is_leaf_degenerate_misclassified :
    TreeNode.is_leaf (TreeNode.mk none none none []) = false := rfl

/-- C3: `best_split` returns `None` exactly when no candidate is usable,
and otherwise the first candidate, in the supplied order, among the
usable ones of strictly smallest imbalance: every usable candidate before
the winner has strictly larger balance (so ties go to the earliest), and
every usable candidate after it has no smaller balance. -/
theorem best_split_first_strict_min (rows : List Row) (cs : List String) :
    (best_split rows cs = none ↔ ∀ c ∈ cs, ¬ usable rows c) ∧
    (∀ c, best_split rows cs = some c →
      ∃ pre post, cs = pre ++ c :: post ∧ usable rows c ∧
        (∀ d ∈ pre, usable rows d → balance rows c < balance rows d) ∧
        (∀ d ∈ post, usable rows d → balance rows c ≤ balance rows d)) := by
  obtain ⟨h1, h2⟩ := best_split_foldl_inv rows cs
  constructor
  · constructor
    · intro h
      unfold best_split at h
      exact h1 (Option.map_eq_none'.mp h)
    · intro hall
      unfold best_split
      cases hF : cs.foldl (best_split_step rows) none with
      | none => rfl
      | some ab =>
        obtain ⟨a, ba⟩ := ab
        obtain ⟨hba, pre, post, hdec, hua, _, _⟩ := h2 a ba hF
        have hamem : a ∈ cs := by rw [hdec]; simp
        exact absurd hua (hall a hamem)
  · intro c hc
    unfold best_split at hc
    obtain ⟨⟨a, ba⟩, hF, hfst⟩ := Option.map_eq_some'.mp hc
    dsimp only at hfst
    subst hfst
    obtain ⟨hba, pre, post, hdec, hua, hpre, hpost⟩ := h2 a ba hF
    subst hba
    exact ⟨pre, post, hdec, hua, hpre, hpost⟩

/-- Witness for C3 on a concrete dataset where feature "a" splits 3/1 and
feature "b" splits 2/2: the selector picks "b" and the characterization
instantiates. -/
theorem best_split_first_strict_min_witness :
    best_split exRowsAB ["a", "b"] = some "b" ∧
    (∃ pre post, (["a", "b"] : List String) = pre ++ "b" :: post ∧ usable exRowsAB "b" ∧
      (∀ d ∈ pre, usable exRowsAB d → balance exRowsAB "b" < balance exRowsAB d) ∧
      (∀ d ∈ post, usable exRowsAB d → balance exRowsAB "b" ≤ balance exRowsAB d)) :=
  ⟨by decide, (best_split_first_strict_min exRowsAB ["a", "b"]).2 "b" (by decide)⟩

/-- C4: when `build_tree` splits on a chosen feature, the left child is
built from exactly the rows stripping to "0" on it and the right child
from exactly those stripping to "1", both in original order (sublists of
the input), and a row stripping to neither value lands in neither
subset. -/
theorem build_tree_split_partition (rows : List Row) (cs : List String) (lbl c : String)
    (h1 : rows ≠ []) (h2 : all_same_values rows (lbl :: cs) = false)
    (h3 : best_split rows cs = some c) (h4 : c ≠ "") :
    build_tree rows cs lbl =
      TreeNode.mk (some c)
        (some (build_tree (left_split rows c) (remaining_classifications cs c) lbl))
        (some (build_tree (right_split rows c) (remaining_classifications cs c) lbl)) [] ∧
    (∀ r, r ∈ left_split rows c ↔ r ∈ rows ∧ strip (r c) = "0") ∧
    (∀ r, r ∈ right_split rows c ↔ r ∈ rows ∧ strip (r c) = "1") ∧
    List.Sublist (left_split rows c) rows ∧
    List.Sublist (right_split rows c) rows ∧
    (∀ r ∈ rows, strip (r c) ≠ "0" → strip (r c) ≠ "1" →
      r ∉ left_split rows c ∧ r ∉ right_split rows c) := by
  refine ⟨build_tree_eq_split rows cs lbl c h1 h2 h3 h4, ?_, ?_, ?_, ?_, ?_⟩
  · intro r
    unfold left_split
    rw [List.mem_filter]
    simp
  · intro r
    unfold right_split
    rw [List.mem_filter]
    simp
  · exact List.filter_sublist rows
  · exact List.filter_sublist rows
  · intro r _ hn0 hn1
    constructor
    · intro hcon
      exact hn0 (by simpa using (List.mem_filter.mp hcon).2)
    · intro hcon
      exact hn1 (by simpa using (List.mem_filter.mp hcon).2)

/-- Witness for C4 on the two-row dataset: the "no" subset of the chosen
feature "legs" is an in-order sublist of the input rows. -/
theorem build_tree_split_partition_witness :
    List.Sublist (left_split exRows "legs") exRows :=
  (build_tree_split_partition exRows ["legs"] "label" "legs"
    (by unfold exRows; exact List.cons_ne_nil _ _)
    (by decide) (by decide) (by decide)).2.2.2.1

/-- C5: reaching a leaf with a non-empty answers list after `k` traversal
questions, the engine runs the confirmation loop on the stored answers in
order, one counted question per answer: the first affirmed answer `j`
yields success with counter `k + j + 1`, and if no answer is affirmed the
outcome is failure with counter `k + N`. -/
theorem play_game_leaf_confirmation (tree : TreeNode) (src : Nat → Bool) (node : TreeNode)
    (i k : Nat) (h : run_traversal src tree 0 0 = some (node, i, k))
    (hne : node.answers ≠ []) :
    play_game tree src = some (guess_loop src node.answers i k) ∧
    (∀ j, ∀ hj : j < node.answers.length, src (i + j) = true →
      (∀ m, m < j → src (i + m) = false) →
      guess_loop src node.answers i k =
        Outcome.success (node.answers.get ⟨j, hj⟩) (k + (j + 1))) ∧
    ((∀ j, j < node.answers.length → src (i + j) = false) →
      guess_loop src node.answers i k = Outcome.failure (k + node.answers.length)) := by
  refine ⟨?_, fun j hj ht hf => guess_loop_success src node.answers i k j hj ht hf,
    fun hf => guess_loop_failure src node.answers i k hf⟩
  unfold play_game
  rw [h]
  dsimp only
  have hlen : 0 < node.answers.length := List.length_pos.mpr hne
  by_cases hone : node.answers.length = 1
  · rw [if_pos hone]
  · rw [if_neg hone, if_pos (by omega)]

/-- Witness for C5: a leaf with answers ["cat", "dog"] and replies
"no" then "yes" succeeds on "dog" after 2 questions. -/
theorem play_game_leaf_confirmation_witness :
    play_game (TreeNode.mk none none none ["cat", "dog"]) exSrcNoYes =
      some (Outcome.success "dog" 2) := by
  have h := play_game_leaf_confirmation (TreeNode.mk none none none ["cat", "dog"]) exSrcNoYes
    (TreeNode.mk none none none ["cat", "dog"]) 0 0 rfl (by decide)
  rw [h.1]
  rw [h.2.1 1 (by decide) (by decide)
    (fun m hm => by
      have hm0 : m = 0 := by omega
      subst hm0
      decide)]
  rfl

/-- C6: `build_tree` terminates (it is a total function of its inputs,
with the recursion measured by the shrinking candidate list) and the
height of the resulting tree is at most the number of candidate features
plus one. -/
theorem build_tree_depth_le (rows : List Row) (cs : List String) (lbl : String) :
    (build_tree rows cs lbl).depth ≤ cs.length + 1 :=
  build_tree_depth_le_aux cs.length rows cs lbl (le_refl _)

/-- C7: along any root-to-leaf path of a built tree no feature name
appears as the question of more than one internal node, since the chosen
feature is removed from the candidate list before both recursive calls. -/
theorem build_tree_paths_nodup (rows : List Row) (cs : List String) (lbl : String)
    (p : List String) (hp : p ∈ (build_tree rows cs lbl).paths) : p.Nodup :=
  (build_tree_paths_aux cs.length rows cs lbl (le_refl _) p hp).1

/-- Witness for C7: the question sequence along a path of the two-row
example tree is duplicate-free. -/
theorem build_tree_paths_nodup_witness : (["legs"] : List String).Nodup :=
  build_tree_paths_nodup exRows ["legs"] "label" ["legs"]
    (by rw [build_tree_ex_eval]; decide)

/-- C8: on the empty row list `build_tree` returns the degenerate leaf —
no question, no children, and an empty answers collection. -/
theorem build_tree_empty_rows_degenerate (cs : List String) (lbl : String) :
    build_tree [] cs lbl = TreeNode.mk none none none [] :=
  build_tree_nil cs lbl

/-- C9: a tree built from a non-empty row list has no terminal node with
an empty answers collection: a selected feature has both buckets strictly
positive, so both partitions passed to the recursive calls are non-empty,
and the degenerate empty leaf can only arise from empty input. -/
theorem build_tree_leaves_nonempty (rows : List Row) (cs : List String) (lbl : String)
    (h : rows ≠ []) : ∀ ans ∈ (build_tree rows cs lbl).leaves, ans ≠ [] :=
  build_tree_leaves_aux cs.length rows cs lbl (le_refl _) h

/-- Witness for C9: the "dog" leaf of the two-row example tree has a
non-empty answers list. -/
theorem build_tree_leaves_nonempty_witness : (["dog"] : List String) ≠ [] :=
  build_tree_leaves_nonempty exRows ["legs"] "label"
    (by unfold exRows; exact List.cons_ne_nil _ _) ["dog"]
    (by rw [build_tree_ex_eval]; decide)

/-- C10: a play-through never writes to the node heap — no question,
answers, left or right field of any node changes — so replaying any
number of sequential sessions from the same root leaves the structure
unchanged and gives each session the outcome of a fresh session on the
original heap. -/
theorem play_game_no_mutation (h : Heap) (src : Nat → Bool) (root fuel : Nat) :
    (play_game_h h src root fuel).2 = h ∧
    ∀ srcs : List (Nat → Bool),
      (play_sessions root fuel srcs h).2 = h ∧
      (play_sessions root fuel srcs h).1 =
        srcs.map (fun s => (play_game_h h s root fuel).1) :=
  ⟨play_game_h_heap h src root fuel, fun srcs => play_sessions_spec root fuel srcs h⟩
